import Mathlib

/-!
Shallow embedding of the Markdown flattening renderer of lspoints-toolkit
(src/markdown.ts together with the attribute model of src/markup_text.ts).

Modelling conventions:
* A text line is a `List Char`; `strBytes` models the `strBytes` helper
  (UTF-8 byte length via `TextEncoder`), computed as the sum of the UTF-8
  sizes of the characters.
* The HTML-entity unescaping function (`unescape` of `jsr:@std/html`) is an
  external dependency of the renderer; every render function is
  parameterised over it as `u : List Char → List Char`.  Concrete
  evaluations instantiate `u` with the identity function, which agrees with
  the real `unescape` on every entity-free string used in them.
* The external tokenizer (`marked.lexer`) is out of scope; `parseMarkdown`
  takes both the raw markdown source and the token list the tokenizer
  produced from it.
* JavaScript `throw` of the renderer's `NotImplementedError` is modelled by
  `Except (List Char)`: an `.error` result carries the message and no
  text/attrs output, matching the atomic-failure behaviour of exceptions.
* `Renderer.#getEofPosition` reads `this.text[this.text.length - 1]`; on an
  empty buffer this is `undefined` and `TextEncoder.encode(undefined)`
  encodes the default argument `""`, so the byte length is `0`.  This is
  modelled by `List.getLastD [] `.
* In the list case, `const { text: [hd, ...tl] } = ...` destructures the
  sub-render; when the sub-render produced no lines, `hd` is `undefined`
  and the template literal renders it as the string `"undefined"`.
-/

namespace LspointsMarkdown

/-- A single output line, as a list of characters. -/
abbrev Line := List Char

/-- Models `strBytes`: the UTF-8 encoded byte length of a line
(`new TextEncoder().encode(text).length`). -/
def strBytes (text : Line) : Nat := (text.map Char.utf8Size).sum

/-- Models `LSP.Position`. -/
structure Position where
  line : Nat
  character : Nat
deriving Repr, DecidableEq

/-- Models `LSP.Range`. -/
structure Range where
  start : Position
  «end» : Position
deriving Repr, DecidableEq

/-- Models `TextAttrItem` of markup_text.ts: a closed tagged union of
attribute kinds (`fenced` and `title` carry an extra payload,
`horizontalrule` carries only a line, the rest carry only a range). -/
inductive TextAttrItem where
  | fenced (range : Range) (lang : Line)
  | title (range : Range) (depth : Nat)
  | horizontalrule (line : Nat)
  | bold (range : Range)
  | strike (range : Range)
  | italic (range : Range)
  | link (range : Range)
  | url (range : Range)
  | codespan (range : Range)
  | codespanDelimiter (range : Range)
deriving Repr, DecidableEq

/-- The range of a range-bearing attribute (`none` for `horizontalrule`). -/
def attrRange? : TextAttrItem → Option Range
  | .fenced r _ => some r
  | .title r _ => some r
  | .horizontalrule _ => none
  | .bold r => some r
  | .strike r => some r
  | .italic r => some r
  | .link r => some r
  | .url r => some r
  | .codespan r => some r
  | .codespanDelimiter r => some r

/-- Shift of a range by a positional delta, as performed by
`transformPosition` on every non-`horizontalrule` attribute. -/
def shiftRange (src : Range) (delta : Position) : Range :=
  { start := { line := src.start.line + delta.line
               character := src.start.character + delta.character }
    «end» := { line := src.«end».line + delta.line
               character := src.«end».character + delta.character } }

/-- Models `transformPosition`: a `horizontalrule` gets only its `line`
shifted by `delta.line`; every other attribute keeps its payload and gets
its range shifted by the delta. -/
def transformPosition (attr : TextAttrItem) (delta : Position) : TextAttrItem :=
  match attr with
  | .horizontalrule line => .horizontalrule (line + delta.line)
  | .fenced r lang => .fenced (shiftRange r delta) lang
  | .title r depth => .title (shiftRange r delta) depth
  | .bold r => .bold (shiftRange r delta)
  | .strike r => .strike (shiftRange r delta)
  | .italic r => .italic (shiftRange r delta)
  | .link r => .link (shiftRange r delta)
  | .url r => .url (shiftRange r delta)
  | .codespan r => .codespan (shiftRange r delta)
  | .codespanDelimiter r => .codespanDelimiter (shiftRange r delta)

/-- The ECMAScript regex class of whitespace characters (as matched by
the source regexes testing blank lines and interior indentation), by code
point: tab, line feed, vertical tab, form feed, carriage return, space,
no-break space, ogham space mark, the U+2000..U+200A spaces, line
separator, paragraph separator, narrow no-break space, medium mathematical
space, ideographic space and the BOM. -/
def isJsWhitespace (c : Char) : Bool :=
  let n := c.toNat
  n = 0x20 || n = 0x09 || n = 0x0a || n = 0x0b || n = 0x0c || n = 0x0d ||
  n = 0xa0 || n = 0x1680 || (0x2000 ≤ n && n ≤ 0x200a) ||
  n = 0x2028 || n = 0x2029 || n = 0x202f || n = 0x205f || n = 0x3000 ||
  n = 0xfeff

/-- Models `/^\s*$/.test(v)`: the line is empty or all-whitespace. -/
def isBlankLine (l : Line) : Bool := l.all isJsWhitespace

/-- Models `dropLastWhile` of `jsr:@std/collections`: remove the longest
suffix whose elements all satisfy `p`. -/
def dropLastWhile (p : α → Bool) (l : List α) : List α :=
  (l.reverse.dropWhile p).reverse

/-- Models `text.split(/\n/)`: split on newline characters; always returns
at least one (possibly empty) segment. -/
def splitOnNl : Line → List Line
  | [] => [[]]
  | c :: rest =>
    if c = '\n' then [] :: splitOnNl rest
    else
      match splitOnNl rest with
      | [] => [[c]]
      | seg :: segs => (c :: seg) :: segs

/-- Models `raw.replace(/\n$/, "")`: remove a single trailing newline. -/
def stripTrailingNewline (l : Line) : Line :=
  if l.getLastD ' ' = '\n' then l.dropLast else l

/-- Models `text.replace(/(?<=\n)\s+/g, "")`: remove every maximal
whitespace run that immediately follows a newline.  The flag records
whether the previous character of the original string was a newline;
it starts out false because the lookbehind cannot match at position 0. -/
def stripAfterNewlineWs : Bool → Line → Line
  | _, [] => []
  | afterNl, c :: rest =>
    if afterNl && isJsWhitespace c then
      stripAfterNewlineWs false (rest.dropWhile isJsWhitespace)
    else
      c :: stripAfterNewlineWs (c = '\n') rest
termination_by _ l => l.length
decreasing_by
  · simp only [List.length_cons]
    exact Nat.lt_succ_of_le (List.Sublist.length_le (List.dropWhile_sublist _))
  · simp only [List.length_cons]
    exact Nat.lt_succ_self _

/-- Models `String.prototype.padStart(targetLength, pad)` for a
single-character pad string. -/
def padStart (l : Line) (targetLength : Nat) (pad : Char) : Line :=
  List.replicate (targetLength - l.length) pad ++ l

/-- Models `Number.prototype.toString()` on a natural number: its decimal
digit string. -/
def natToString (n : Nat) : Line :=
  if n = 0 then ['0'] else ((Nat.digits 10 n).map Nat.digitChar).reverse

/-- The bullet glyph used for unordered list items
(U+2022, 3 UTF-8 bytes). -/
def labelChar : Line := ['•']

/-- The backtick character appended around codespans. -/
def backtickChar : Char := Char.ofNat 96

/-- The string JavaScript produces when a template literal interpolates
`undefined` (the destructured head of an empty sub-render). -/
def undefinedLine : Line := "undefined".toList

/-- Models the marked token tree consumed by the renderer.  `linkdef`
stands for the token kind named `def` (a reserved word in Lean).  A
`list`'s items are `list_item` tokens carrying their optional
checked state. -/
inductive Token where
  | space (raw : Line)
  | code (text : Line) (lang : Option Line)
  | heading (depth : Nat) (tokens : List Token)
  | table (raw : Line)
  | hr
  | blockquote (tokens : List Token)
  | list (ordered : Bool) (items : List Token)
  | list_item (checked : Option Bool) (tokens : List Token)
  | paragraph (tokens : List Token)
  | html (raw : Line)
  | text (text : Line)
  | linkdef (raw : Line)
  | escape (raw : Line)
  | image (href : Line) (title : Option Line) (text : Line)
  | link (href : Line) (title : Option Line) (text : Line) (tokens : List Token)
  | strong (tokens : List Token)
  | em (tokens : List Token)
  | codespan (text : Line)
  | br
  | del (tokens : List Token)

/-- Models the property access `item.checked` (undefined on tokens other
than list items). -/
def itemChecked : Token → Option Bool
  | .list_item checked _ => checked
  | _ => none

/-- Models the JavaScript truthiness test `v.checked` used by
`items.filter((v) => v.checked)`: only `checked === true` is truthy
(`false` and `undefined` are falsy). -/
def checkedTruthy (t : Token) : Bool :=
  match itemChecked t with
  | some true => true
  | _ => false

/-- Models `chTok.type === "list"`. -/
def Token.isList : Token → Bool
  | .list _ _ => true
  | _ => false

/-- Models `chTok.type === "text"`. -/
def Token.isTextKind : Token → Bool
  | .text _ => true
  | _ => false

/-- Models the property access `chTok.text` on a text token. -/
def textOfToken : Token → Line
  | .text t => t
  | _ => []

/-- The shared label width of a list: digit width of the item count plus
one (for the dot) when ordered, else the byte width of the bullet glyph. -/
def listLabelSize (ordered : Bool) (items : List Token) : Nat :=
  if ordered then (natToString items.length).length + 1 else strBytes labelChar

/-- The shared checkbox-column width of a list:
`token.items.filter((v) => v.checked).length > 0 ? 4 : 0`. -/
def listCheckboxSize (items : List Token) : Nat :=
  if 0 < (items.filter checkedTruthy).length then 4 else 0

/-- The label emitted for one list item: right-justified number plus dot
for ordered lists, the bullet glyph otherwise. -/
def renderLabel (ordered : Bool) (labelSize idx : Nat) : Line :=
  if ordered then padStart (natToString (idx + 1)) (labelSize - 1) ' ' ++ ['.']
  else labelChar

/-- The checkbox rendering for one list item: blank padding when no
checkbox state applies, else `" [x]"` / `" [ ]"`. -/
def renderCheckbox (checked : Option Bool) (checkboxSize : Nat) : Line :=
  match checked with
  | none => List.replicate checkboxSize ' '
  | some true => [' ', '[', 'x', ']']
  | some false => [' ', '[', ' ', ']']

/-- The renderer's state: the `text` line buffer and the collected
attribute list of one `Renderer` instance. -/
structure RState where
  text : List Line
  attrs : List TextAttrItem
deriving Repr, DecidableEq

/-- A freshly constructed renderer (`new Renderer()`). -/
def RState.empty : RState := ⟨[], []⟩

/-- Models `Renderer.#getEofPosition`: line is the current line count,
character is the byte length of the last line plus one (plus one more when
exclusive).  On an empty buffer the indexed element is `undefined`, whose
encoding has length 0, modelled by the default `[]`. -/
def getEofPosition (st : RState) (exclusive : Bool := false) : Position :=
  { line := st.text.length
    character := strBytes (st.text.getLastD []) + 1 + (if exclusive then 1 else 0) }

/-- Models `Renderer.#appendText`: unescape, split on newlines, append the
first segment to the current last line (or start the buffer), push the
remaining segments as new lines, and return the range spanning the
appended text. -/
def appendText (u : Line → Line) (st : RState) (text : Line) : Range × RState :=
  let segs := splitOnNl (u text)
  let top := segs.headD []
  let rest := segs.tail
  if st.text = [] then
    let st' : RState := { st with text := segs }
    (⟨⟨1, 1⟩, getEofPosition st'⟩, st')
  else
    let start := getEofPosition st
    let st' : RState :=
      { st with text := st.text.dropLast ++ [st.text.getLastD [] ++ top] ++ rest }
    (⟨start, getEofPosition st'⟩, st')

/-- The error message of the `NotImplementedError` raised for an
unsupported token kind (`html`, `def` or `escape`). -/
def notImplementedMsg (kind : Line) : Line :=
  "Not implemented yet: ".toList ++ kind

theorem lexOfLt {a b i j : Nat} (h : a < b) :
    Prod.Lex (· < ·) (· < ·) (a, i) (b, j) :=
  Prod.Lex.left _ _ h

theorem lexOfLeLt {a b i j : Nat} (h1 : a ≤ b) (h2 : i < j) :
    Prod.Lex (· < ·) (· < ·) (a, i) (b, j) := by
  rcases Nat.lt_or_ge a b with h | h
  · exact Prod.Lex.left _ _ h
  · have hab : a = b := Nat.le_antisymm h1 h
    subst hab
    exact Prod.Lex.right _ h2

theorem one_le_sizeOf_listToken (l : List Token) : 1 ≤ sizeOf l := by
  cases l <;> simp_arith

mutual

/-- Models `Renderer.#renderOne`: the per-token-kind dispatch. -/
def renderOne (u : Line → Line) (t : Token) (st : RState) :
    Except Line RState :=
  match t with
  | .heading depth tokens => do
    let (r1, st1) := appendText u st (List.replicate depth '#' ++ [' '])
    let (r2, st2) ← renderList u tokens st1
    let st3 : RState := { st2 with text := st2.text ++ [[]] }
    .ok { st3 with attrs := st3.attrs ++ [.title ⟨r1.start, r2.«end»⟩ depth] }
  | .paragraph tokens => do
    let (_, st1) ← renderList u tokens st
    .ok { st1 with text := st1.text ++ [[]] }
  | .text txt => .ok (appendText u st txt).2
  | .space raw => .ok (appendText u st (stripTrailingNewline raw)).2
  | .br => .ok { st with text := st.text ++ [[]] }
  | .strong tokens => do
    let (range, st1) ← renderList u tokens st
    .ok { st1 with attrs := st1.attrs ++ [.bold range] }
  | .del tokens => do
    let (range, st1) ← renderList u tokens st
    .ok { st1 with attrs := st1.attrs ++ [.strike range] }
  | .em tokens => do
    let (range, st1) ← renderList u tokens st
    .ok { st1 with attrs := st1.attrs ++ [.italic range] }
  | .link href title _txt tokens => do
    let (_, st1) := appendText u st ['[']
    let (range, st2) ← renderList u tokens st1
    let st3 : RState := { st2 with attrs := st2.attrs ++ [.link range] }
    let (_, st4) := appendText u st3 [']', '(']
    let (r2, st5) := appendText u st4 href
    let st6 : RState := { st5 with attrs := st5.attrs ++ [.url r2] }
    let st7 : RState :=
      match title with
      | some ttl =>
        if ttl = [] then st6
        else
          let (_, sa) := appendText u st6 [' ']
          let (r3, sb) := appendText u sa ttl
          { sb with attrs := sb.attrs ++ [.title r3 0] }
      | none => st6
    .ok (appendText u st7 [')']).2
  | .image href title txt => do
    let (_, st1) := appendText u st ['!', '[']
    let (range, st2) := appendText u st1 txt
    let st3 : RState := { st2 with attrs := st2.attrs ++ [.link range] }
    let (_, st4) := appendText u st3 [']', '(']
    let (r2, st5) := appendText u st4 href
    let st6 : RState := { st5 with attrs := st5.attrs ++ [.url r2] }
    let st7 : RState :=
      match title with
      | some ttl =>
        if ttl = [] then st6
        else
          let (_, sa) := appendText u st6 [' ']
          let (r3, sb) := appendText u sa ttl
          { sb with attrs := sb.attrs ++ [.title r3 0] }
      | none => st6
    .ok (appendText u st7 [')']).2
  | .code txt lang => do
    let lang' := lang.getD []
    let (range, st1) := appendText u st txt
    let st2 : RState := { st1 with attrs := st1.attrs ++ [.fenced range lang'] }
    .ok { st2 with text := st2.text ++ [[]] }
  | .codespan txt => do
    let (ra, st1) := appendText u st [backtickChar]
    let st2 : RState := { st1 with attrs := st1.attrs ++ [.codespanDelimiter ra] }
    let (rb, st3) := appendText u st2 txt
    let st4 : RState := { st3 with attrs := st3.attrs ++ [.codespan rb] }
    let (rc, st5) := appendText u st4 [backtickChar]
    .ok { st5 with attrs := st5.attrs ++ [.codespanDelimiter rc] }
  | .blockquote tokens => do
    let sub ← render u tokens
    let quoted := (dropLastWhile isBlankLine sub.text).map (fun v => ['>', ' '] ++ v)
    let shifted := sub.attrs.map (fun attr =>
      transformPosition attr ⟨st.text.length, 2⟩)
    .ok { text := st.text ++ quoted ++ [[]], attrs := st.attrs ++ shifted }
  | .hr => do
    let st1 : RState := { st with text := st.text ++ [[]] }
    .ok { st1 with attrs := st1.attrs ++ [.horizontalrule (st1.text.length - 1)] }
  | .table raw => .ok (appendText u st raw).2
  | .list ordered items =>
    renderItems u ordered (listLabelSize ordered items) (listCheckboxSize items)
      0 items st
  | .list_item _checked tokens => renderItemChildren u tokens st
  | .html _ => .error (notImplementedMsg ("html".toList))
  | .linkdef _ => .error (notImplementedMsg ("def".toList))
  | .escape _ => .error (notImplementedMsg ("escape".toList))
termination_by (sizeOf t, 0)
decreasing_by all_goals
  simp_wf
  first
    | exact lexOfLt (by omega)
    | exact lexOfLeLt (by have h9 := one_le_sizeOf_listToken rest; omega) (by omega)
    | exact lexOfLeLt (by omega) (by omega)

/-- Models the `tokens.forEach((tok) => this.#renderOne(...))` loop. -/
def renderTokens (u : Line → Line) (ts : List Token) (st : RState) :
    Except Line RState :=
  match ts with
  | [] => .ok st
  | t :: rest => do
    let st' ← renderOne u t st
    renderTokens u rest st'
termination_by (sizeOf ts, 0)
decreasing_by all_goals
  simp_wf
  first
    | exact lexOfLt (by omega)
    | exact lexOfLeLt (by have h9 := one_le_sizeOf_listToken rest; omega) (by omega)
    | exact lexOfLeLt (by omega) (by omega)

/-- Models `Renderer.#renderList`: dispatch every token in sequence and
return the range spanning from before the first to after the last. -/
def renderList (u : Line → Line) (ts : List Token) (st : RState) :
    Except Line (Range × RState) := do
  let start := getEofPosition st
  let st' ← renderTokens u ts st
  .ok (⟨start, getEofPosition st'⟩, st')
termination_by (sizeOf ts, 1)
decreasing_by all_goals
  simp_wf
  first
    | exact lexOfLt (by omega)
    | exact lexOfLeLt (by have h9 := one_le_sizeOf_listToken rest; omega) (by omega)
    | exact lexOfLeLt (by omega) (by omega)

/-- Models `new Renderer().render(tokens)`: render into a fresh renderer
and return its text buffer and attribute list. -/
def render (u : Line → Line) (ts : List Token) : Except Line RState := do
  let (_, st) ← renderList u ts RState.empty
  .ok st
termination_by (sizeOf ts, 2)
decreasing_by all_goals
  simp_wf
  first
    | exact lexOfLt (by omega)
    | exact lexOfLeLt (by have h9 := one_le_sizeOf_listToken rest; omega) (by omega)
    | exact lexOfLeLt (by omega) (by omega)

/-- Models the `token.items.forEach((item, idx) => ...)` loop of the list
case: sub-render each item, prefix the label/checkbox, indent continuation
lines and merge the item's attributes shifted by
`{line: 0, character: indentSize}`. -/
def renderItems (u : Line → Line) (ordered : Bool)
    (labelSize checkboxSize idx : Nat) (items : List Token) (st : RState) :
    Except Line RState :=
  match items with
  | [] => .ok st
  | item :: rest => do
    let sub ← render u [item]
    let hd := sub.text.headD undefinedLine
    let tl := sub.text.tail
    let label := renderLabel ordered labelSize idx
    let checkbox := renderCheckbox (itemChecked item) checkboxSize
    let indentSize := labelSize + checkboxSize + 1
    let st1 : RState := { st with text := st.text ++ [label ++ checkbox ++ [' '] ++ hd] }
    let st2 : RState :=
      { st1 with text := st1.text ++ tl.map (fun v => List.replicate indentSize ' ' ++ v) }
    let st3 : RState :=
      { st2 with attrs := st2.attrs ++ sub.attrs.map (fun attr =>
          transformPosition attr ⟨0, indentSize⟩) }
    renderItems u ordered labelSize checkboxSize (idx + 1) rest st3
termination_by (sizeOf items, 3)
decreasing_by all_goals
  simp_wf
  first
    | exact lexOfLt (by omega)
    | exact lexOfLeLt (by have h9 := one_le_sizeOf_listToken rest; omega) (by omega)
    | exact lexOfLeLt (by omega) (by omega)

/-- Models the `token.tokens.forEach((chTok) => ...)` loop of the
list_item case: a nested list child is sub-rendered and merged with its
attribute lines shifted by the current line count; a text child has
interior leading whitespace stripped; other children render directly. -/
def renderItemChildren (u : Line → Line) (ts : List Token) (st : RState) :
    Except Line RState :=
  match ts with
  | [] => .ok st
  | chTok :: rest => do
    let st' ←
      if chTok.isList then do
        let sub ← render u [chTok]
        let delta : Position := ⟨st.text.length, 0⟩
        let transformed := sub.attrs.map (fun attr => transformPosition attr delta)
        .ok ({ text := st.text ++ sub.text, attrs := st.attrs ++ transformed } : RState)
      else if chTok.isTextKind then
        .ok (appendText u st (stripAfterNewlineWs false (textOfToken chTok))).2
      else
        renderOne u chTok st
    renderItemChildren u rest st'
termination_by (sizeOf ts, 3)
decreasing_by all_goals
  simp_wf
  first
    | exact lexOfLt (by omega)
    | exact lexOfLeLt (by have h9 := one_le_sizeOf_listToken rest; omega) (by omega)
    | exact lexOfLeLt (by omega) (by omega)

end

/-- The stable user-facing diagnostic `parseMarkdown` wraps around a
`NotImplementedError`. -/
def internalErrorMsg : Line :=
  ("Internal error: Please report this to " ++
   "https://github.com/mityu/lspoints-toolkit/issues with the following " ++
   "error messages.").toList

/-- The value returned by `parseMarkdown`. -/
structure MarkdownResult where
  text : List Line
  attrs : List TextAttrItem
deriving Repr, DecidableEq

/-- Models the public entry point `parseMarkdown`.  The external tokenizer
is out of scope, so the function takes both the raw markdown source and
the token list the tokenizer produced from it.  On success the trailing
exactly-empty lines are dropped; the only failure the renderer itself
raises is the `NotImplementedError`, which is wrapped with the internal
diagnostic and the original source. -/
def parseMarkdown (u : Line → Line) (markdown : Line) (tokens : List Token) :
    Except Line MarkdownResult :=
  match render u tokens with
  | .ok st => .ok ⟨dropLastWhile (fun v => v = ([] : Line)) st.text, st.attrs⟩
  | .error e => .error (e ++ ['\n'] ++ internalErrorMsg ++ ['\n'] ++ markdown)

mutual

/-- Containment of an unsupported (`html` / `def` / `escape`) token
anywhere in a token, through every child list the renderer descends
into. -/
def hasUnsupportedTok : Token → Bool
  | .heading _ ts => hasUnsupportedList ts
  | .blockquote ts => hasUnsupportedList ts
  | .paragraph ts => hasUnsupportedList ts
  | .list _ items => hasUnsupportedList items
  | .list_item _ ts => hasUnsupportedList ts
  | .link _ _ _ ts => hasUnsupportedList ts
  | .strong ts => hasUnsupportedList ts
  | .em ts => hasUnsupportedList ts
  | .del ts => hasUnsupportedList ts
  | .html _ => true
  | .linkdef _ => true
  | .escape _ => true
  | _ => false
termination_by t => sizeOf t
decreasing_by all_goals (simp_wf; try omega)

/-- Containment of an unsupported token in any token of a list. -/
def hasUnsupportedList : List Token → Bool
  | [] => false
  | t :: rest => hasUnsupportedTok t || hasUnsupportedList rest
termination_by ts => sizeOf ts
decreasing_by all_goals (simp_wf; try omega)

end

/-! ### Ordering of positions and growth of the line buffer -/

/-- Lexicographic comparison of positions: `p` is at or before `q`. -/
def posLe (p q : Position) : Prop :=
  p.line < q.line ∨ (p.line = q.line ∧ p.character ≤ q.character)

instance (p q : Position) : Decidable (posLe p q) := by
  unfold posLe
  infer_instance

/-- The end-of-buffer position of a line buffer (the non-exclusive
`getEofPosition`, as a function of the text alone). -/
def eofOf (t : List Line) : Position :=
  ⟨t.length, strBytes (t.getLastD []) + 1⟩

theorem getEofPosition_eq_eofOf (st : RState) :
    getEofPosition st = eofOf st.text := rfl

/-- The buffer only grows: the line count never decreases, and when it
stays the same the byte length of the last line never decreases. -/
def Grows (t1 t2 : List Line) : Prop :=
  t1.length ≤ t2.length ∧
  (t1.length = t2.length → strBytes (t1.getLastD []) ≤ strBytes (t2.getLastD []))

theorem growsRefl (t : List Line) : Grows t t :=
  ⟨Nat.le_refl _, fun _ => Nat.le_refl _⟩

theorem growsTrans {t1 t2 t3 : List Line} (h1 : Grows t1 t2) (h2 : Grows t2 t3) :
    Grows t1 t3 := by
  refine ⟨Nat.le_trans h1.1 h2.1, fun he => ?_⟩
  have e1 : t1.length = t2.length := Nat.le_antisymm h1.1 (he ▸ h2.1)
  have e2 : t2.length = t3.length := e1 ▸ he
  exact Nat.le_trans (h1.2 e1) (h2.2 e2)

theorem strBytes_append (a b : Line) :
    strBytes (a ++ b) = strBytes a + strBytes b := by
  simp [strBytes]

theorem growsAppend (t : List Line) (extra : List Line) :
    Grows t (t ++ extra) := by
  refine ⟨by simp, fun he => ?_⟩
  have : extra = [] := by
    have := List.length_append t extra
    rw [← he] at this
    have hlen : extra.length = 0 := by omega
    exact List.length_eq_zero.mp hlen
  subst this
  simp

theorem length_le_strBytes (l : Line) : l.length ≤ strBytes l := by
  induction l with
  | nil => simp [strBytes]
  | cons c rest ih =>
    have hc : 1 ≤ c.utf8Size := Char.utf8Size_pos c
    simp only [strBytes, List.map_cons, List.sum_cons, List.length_cons]
    simp only [strBytes] at ih
    omega

theorem length_lt_strBytes_of_multibyte {l : Line} {c : Char}
    (hc : c ∈ l) (hsz : 1 < c.utf8Size) : l.length < strBytes l := by
  induction l with
  | nil => cases hc
  | cons a rest ih =>
    rcases List.mem_cons.mp hc with h | h
    · subst h
      have := length_le_strBytes rest
      simp only [strBytes, List.map_cons, List.sum_cons, List.length_cons]
      simp only [strBytes] at this
      omega
    · have := ih h
      have ha : 1 ≤ a.utf8Size := Char.utf8Size_pos a
      simp only [strBytes, List.map_cons, List.sum_cons, List.length_cons]
      simp only [strBytes] at this
      omega

theorem eofLe_of_grows {t1 t2 : List Line} (h : Grows t1 t2) :
    posLe (eofOf t1) (eofOf t2) := by
  rcases Nat.lt_or_ge t1.length t2.length with hl | hl
  · exact Or.inl hl
  · have he : t1.length = t2.length := Nat.le_antisymm h.1 hl
    refine Or.inr ⟨he, ?_⟩
    simp only [eofOf]
    have := h.2 he
    omega

theorem posLe_start_of_one_le_length {t : List Line} (h : 1 ≤ t.length) :
    posLe ⟨1, 1⟩ (eofOf t) := by
  rcases Nat.lt_or_ge 1 t.length with hl | hl
  · exact Or.inl hl
  · exact Or.inr ⟨Nat.le_antisymm h hl, by simp [eofOf]⟩

theorem splitOnNl_ne_nil (l : Line) : splitOnNl l ≠ [] := by
  induction l with
  | nil => simp [splitOnNl]
  | cons c rest ih =>
    simp only [splitOnNl]
    split
    · simp
    · split
      · simp
      · simp

/-- Specification of `appendText`: attributes are untouched, the buffer
grows, the resulting buffer is non-empty, the returned end is the new
end-of-buffer position, and the returned start is at or before the
end-of-buffer position of every later state of the buffer. -/
theorem appendText_spec (u : Line → Line) (st : RState) (txt : Line)
    {r : Range} {st' : RState} (h : appendText u st txt = (r, st')) :
    st'.attrs = st.attrs ∧ Grows st.text st'.text ∧ st'.text ≠ [] ∧
    r.«end» = eofOf st'.text ∧
    (∀ t2, Grows st'.text t2 → posLe r.start (eofOf t2)) := by
  by_cases hst : st.text = []
  · have hsegs := splitOnNl_ne_nil (u txt)
    simp only [appendText, hst, if_pos rfl, if_true] at h
    obtain ⟨hr, hst'⟩ := Prod.mk.injEq .. ▸ h
    refine ⟨?_, ?_, ?_, ?_, ?_⟩
    · rw [← hst']
    · rw [← hst', hst]
      exact ⟨by simp, by intro _he; simp [strBytes]⟩
    · rw [← hst']
      simpa using hsegs
    · rw [← hr, ← hst']
      rfl
    · intro t2 hg
      rw [← hr]
      have h1 : 1 ≤ st'.text.length := by
        rw [← hst']
        have := List.length_pos.mpr hsegs
        simpa using this
      exact posLe_start_of_one_le_length (Nat.le_trans h1 hg.1)
  · simp only [appendText, hst, if_neg hst, if_false] at h
    obtain ⟨hr, hst'⟩ := Prod.mk.injEq .. ▸ h
    have hgrow : Grows st.text st'.text := by
      rw [← hst']
      constructor
      · simp only [List.length_append, List.length_cons]
        have := List.length_dropLast st.text
        omega
      · intro he
        simp only [List.length_append, List.length_cons, List.length_dropLast] at he
        have hlen : st.text.length ≠ 0 := by
          intro h0
          exact hst (List.length_eq_zero.mp h0)
        have hrest : (splitOnNl (u txt)).tail.length = 0 := by omega
        have hrest' : (splitOnNl (u txt)).tail = [] := List.length_eq_zero.mp hrest
        simp only [hrest', List.append_nil]
        rw [List.getLastD_concat]
        rw [strBytes_append]
        omega
    refine ⟨by rw [← hst'], hgrow, ?_, by rw [← hr, ← hst']; rfl, ?_⟩
    · rw [← hst']
      simp
    · intro t2 hg
      rw [← hr]
      exact eofLe_of_grows (growsTrans hgrow hg)

/-- The returned range of `appendText` is well ordered. -/
theorem appendText_range_ordered (u : Line → Line) (st : RState) (txt : Line)
    {r : Range} {st' : RState} (h : appendText u st txt = (r, st')) :
    posLe r.start r.«end» := by
  obtain ⟨-, -, -, hend, hstart⟩ := appendText_spec u st txt h
  rw [hend]
  exact hstart st'.text (growsRefl _)

/-! ### Specification of dropLastWhile -/

theorem head?_dropWhile_not {α : Type} (p : α → Bool) (l : List α) :
    ∀ x, ((l.dropWhile p).head? = some x) → p x = false := by
  induction l with
  | nil => simp
  | cons a rest ih =>
    intro x hx
    rw [List.dropWhile_cons] at hx
    by_cases hpa : p a = true
    · rw [if_pos hpa] at hx
      exact ih x hx
    · rw [if_neg hpa] at hx
      simp only [List.head?_cons, Option.some.injEq] at hx
      subst hx
      simpa using hpa

/-- `dropLastWhile p l` removes exactly a suffix of elements satisfying
`p`, and its own last element (when present) does not satisfy `p`. -/
theorem dropLastWhile_spec {α : Type} (p : α → Bool) (l : List α) :
    ∃ dropped, l = dropLastWhile p l ++ dropped ∧
      (∀ x ∈ dropped, p x = true) ∧
      (∀ x, (dropLastWhile p l).getLast? = some x → p x = false) := by
  refine ⟨(l.reverse.takeWhile p).reverse, ?_, ?_, ?_⟩
  · unfold dropLastWhile
    rw [← List.reverse_append, List.takeWhile_append_dropWhile, List.reverse_reverse]
  · intro x hx
    rw [List.mem_reverse] at hx
    exact List.mem_takeWhile_imp hx
  · intro x hx
    unfold dropLastWhile at hx
    rw [List.getLast?_reverse] at hx
    exact head?_dropWhile_not p l.reverse x hx

/-! ### Ordered attributes and their preservation by transformPosition -/

/-- A range-bearing attribute is well ordered when its start is at or
before its end; `horizontalrule` is unconstrained. -/
def attrOrdered (a : TextAttrItem) : Prop :=
  ∀ r, attrRange? a = some r → posLe r.start r.«end»

theorem attrOrdered_of_no_range {a : TextAttrItem} (h : attrRange? a = none) :
    attrOrdered a := by
  intro r hr
  rw [h] at hr
  cases hr

theorem posLe_shift {p q : Position} (δ : Position) (h : posLe p q) :
    posLe ⟨p.line + δ.line, p.character + δ.character⟩
      ⟨q.line + δ.line, q.character + δ.character⟩ := by
  unfold posLe at h ⊢
  show p.line + δ.line < q.line + δ.line ∨
    (p.line + δ.line = q.line + δ.line ∧
     p.character + δ.character ≤ q.character + δ.character)
  omega

/-- `transformPosition` maps the range of a range-bearing attribute by
`shiftRange` and leaves `horizontalrule` rangeless. -/
theorem attrRange?_transformPosition (a : TextAttrItem) (δ : Position) :
    attrRange? (transformPosition a δ) = (attrRange? a).map (shiftRange · δ) := by
  cases a <;> rfl

theorem attrOrdered_transformPosition {a : TextAttrItem} (δ : Position)
    (h : attrOrdered a) : attrOrdered (transformPosition a δ) := by
  intro r hr
  rw [attrRange?_transformPosition] at hr
  cases ha : attrRange? a with
  | none => rw [ha] at hr; cases hr
  | some r0 =>
    rw [ha] at hr
    simp only [Option.map_some', Option.some.injEq] at hr
    subst hr
    exact posLe_shift δ (h r0 ha)

/-! ### One-step growth/ordering invariant of the renderer -/

/-- One render step only grows the text buffer and only appends
well-ordered attributes. -/
def StepOk (s s' : RState) : Prop :=
  Grows s.text s'.text ∧ ∀ a ∈ s'.attrs, a ∈ s.attrs ∨ attrOrdered a

theorem stepOkRefl (s : RState) : StepOk s s :=
  ⟨growsRefl _, fun a ha => Or.inl ha⟩

theorem stepOkTrans {s1 s2 s3 : RState} (h1 : StepOk s1 s2) (h2 : StepOk s2 s3) :
    StepOk s1 s3 := by
  refine ⟨growsTrans h1.1 h2.1, fun a ha => ?_⟩
  rcases h2.2 a ha with h | h
  · exact h1.2 a h
  · exact Or.inr h

/-- Appending lines and well-ordered attributes is a valid step. -/
theorem stepOk_append (st : RState) (e : List Line) (la : List TextAttrItem)
    (h : ∀ a ∈ la, attrOrdered a) :
    StepOk st ⟨st.text ++ e, st.attrs ++ la⟩ := by
  refine ⟨growsAppend _ _, fun a ha => ?_⟩
  rcases List.mem_append.mp ha with h' | h'
  · exact Or.inl h'
  · exact Or.inr (h a h')

theorem stepOk_of_appendText (u : Line → Line) (st : RState) (txt : Line)
    {r : Range} {st' : RState} (h : appendText u st txt = (r, st')) :
    StepOk st st' := by
  obtain ⟨hattrs, hgrow, -, -, -⟩ := appendText_spec u st txt h
  exact ⟨hgrow, fun a ha => Or.inl (hattrs ▸ ha)⟩

theorem appendText_eta (u : Line → Line) (st : RState) (txt : Line) :
    appendText u st txt = ((appendText u st txt).1, (appendText u st txt).2) := rfl

theorem stepOk_push_lines (st : RState) (e : List Line) :
    StepOk st { st with text := st.text ++ e } :=
  ⟨growsAppend _ _, fun a ha => Or.inl ha⟩

theorem stepOk_push_attrs (st : RState) (la : List TextAttrItem)
    (h : ∀ a ∈ la, attrOrdered a) :
    StepOk st { st with attrs := st.attrs ++ la } := by
  refine ⟨growsRefl _, fun a ha => ?_⟩
  rcases List.mem_append.mp ha with h' | h'
  · exact Or.inl h'
  · exact Or.inr (h a h')

theorem attrOrdered_mk {a : TextAttrItem} {r : Range}
    (ha : attrRange? a = some r) (h : posLe r.start r.«end») : attrOrdered a := by
  intro r' hr'
  rw [ha] at hr'
  cases hr'
  exact h

theorem forall_mem_singleton_attr {a : TextAttrItem} (h : attrOrdered a) :
    ∀ b ∈ [a], attrOrdered b := by
  intro b hb
  rcases List.mem_singleton.mp hb with rfl
  exact h

theorem attrOrdered_title {r : Range} (d : Nat) (h : posLe r.start r.«end») :
    attrOrdered (.title r d) := attrOrdered_mk rfl h

theorem attrOrdered_fenced {r : Range} (lang : Line) (h : posLe r.start r.«end») :
    attrOrdered (.fenced r lang) := attrOrdered_mk rfl h

theorem attrOrdered_bold {r : Range} (h : posLe r.start r.«end») :
    attrOrdered (.bold r) := attrOrdered_mk rfl h

theorem attrOrdered_strike {r : Range} (h : posLe r.start r.«end») :
    attrOrdered (.strike r) := attrOrdered_mk rfl h

theorem attrOrdered_italic {r : Range} (h : posLe r.start r.«end») :
    attrOrdered (.italic r) := attrOrdered_mk rfl h

theorem attrOrdered_link {r : Range} (h : posLe r.start r.«end») :
    attrOrdered (.link r) := attrOrdered_mk rfl h

theorem attrOrdered_url {r : Range} (h : posLe r.start r.«end») :
    attrOrdered (.url r) := attrOrdered_mk rfl h

theorem attrOrdered_codespan {r : Range} (h : posLe r.start r.«end») :
    attrOrdered (.codespan r) := attrOrdered_mk rfl h

theorem attrOrdered_codespanDelimiter {r : Range} (h : posLe r.start r.«end») :
    attrOrdered (.codespanDelimiter r) := attrOrdered_mk rfl h

/-! ### Characterisation of renderTokens / renderList / render -/

theorem renderTokens_cons_ok {u : Line → Line} {t : Token} {rest : List Token}
    {st st' : RState} :
    renderTokens u (t :: rest) st = .ok st' ↔
      ∃ stm, renderOne u t st = .ok stm ∧ renderTokens u rest stm = .ok st' := by
  conv_lhs => rw [renderTokens]
  cases h : renderOne u t st with
  | ok stm => simp [Except.bind, bind, h]
  | error e => simp [Except.bind, bind, h]

theorem renderList_ok_elim {u : Line → Line} {ts : List Token} {st : RState}
    {r : Range} {st' : RState} (h : renderList u ts st = .ok (r, st')) :
    renderTokens u ts st = .ok st' ∧
    r.start = getEofPosition st ∧ r.«end» = getEofPosition st' := by
  rw [renderList] at h
  cases hrt : renderTokens u ts st with
  | ok stm =>
    rw [hrt] at h
    simp only [Except.bind, bind, Except.ok.injEq, Prod.mk.injEq] at h
    obtain ⟨h1, h2⟩ := h
    subst h2
    rw [← h1]
    exact ⟨rfl, rfl, rfl⟩
  | error e =>
    rw [hrt] at h
    simp [Except.bind, bind] at h

theorem renderList_ok_intro {u : Line → Line} {ts : List Token} {st st' : RState}
    (h : renderTokens u ts st = .ok st') :
    renderList u ts st = .ok (⟨getEofPosition st, getEofPosition st'⟩, st') := by
  rw [renderList, h]
  simp [Except.bind, bind]

theorem render_ok {u : Line → Line} {ts : List Token} {sub : RState} :
    render u ts = .ok sub ↔ renderTokens u ts RState.empty = .ok sub := by
  rw [render]
  constructor
  · intro h
    cases hrl : renderList u ts RState.empty with
    | ok p =>
      obtain ⟨r0, st0⟩ := p
      rw [hrl] at h
      simp only [Except.bind, bind, Except.ok.injEq] at h
      obtain ⟨hp, -, -⟩ := renderList_ok_elim hrl
      rw [← h]
      exact hp
    | error e =>
      rw [hrl] at h
      simp [Except.bind, bind] at h
  · intro h
    rw [renderList_ok_intro h]
    simp [Except.bind, bind]

/-! ### The main growth/ordering induction over the renderer -/

/-- Every successful `renderOne` step only grows the buffer and only adds
well-ordered attributes.  Proved by the functional induction principle of
the mutually recursive render functions. -/
theorem renderOne_stepOk (u : Line → Line) :
    ∀ (t : Token) (st : RState), ∀ st', renderOne u t st = .ok st' → StepOk st st' := by
  refine renderOne.induct u
    (fun t st => ∀ st', renderOne u t st = .ok st' → StepOk st st')
    (fun ts st => ∀ st', renderItemChildren u ts st = .ok st' → StepOk st st')
    (fun ts => ∀ sub, render u ts = .ok sub → StepOk RState.empty sub)
    (fun ts st => ∀ r st', renderList u ts st = .ok (r, st') → StepOk st st')
    (fun ts st => ∀ st', renderTokens u ts st = .ok st' → StepOk st st')
    (fun o ls cs idx items st =>
      ∀ st', renderItems u o ls cs idx items st = .ok st' → StepOk st st')
    ?_ ?_ ?_ ?_ ?_ ?_ ?_ ?_ ?_ ?_ ?_ ?_ ?_ ?_ ?_ ?_ ?_ ?_ ?_ ?_ ?_ ?_ ?_ ?_ ?_
    ?_ ?_ ?_ ?_ ?_
  -- heading
  · intro st depth tokens r1 st1 hx ih st' h
    simp only [renderOne] at h
    rw [hx] at h
    cases hrl : renderList u tokens st1 with
    | error e => rw [hrl] at h; simp [Except.bind, bind] at h
    | ok p =>
      obtain ⟨r2, st2⟩ := p
      rw [hrl] at h
      simp only [Except.bind, bind, Except.ok.injEq] at h
      subst h
      obtain ⟨hrt, hstart2, hend2⟩ := renderList_ok_elim hrl
      have hstep1 := stepOk_of_appendText u st _ hx
      have hstep2 := ih r2 st2 hrl
      refine stepOkTrans hstep1 (stepOkTrans hstep2 ?_)
      refine stepOkTrans (stepOk_push_lines st2 [[]]) ?_
      apply stepOk_push_attrs
      apply forall_mem_singleton_attr
      apply attrOrdered_title
      rw [hend2, getEofPosition_eq_eofOf]
      obtain ⟨-, -, -, -, hstartle⟩ := appendText_spec u st _ hx
      exact hstartle st2.text hstep2.1
  -- paragraph
  · intro st tokens ih st' h
    simp only [renderOne] at h
    cases hrl : renderList u tokens st with
    | error e => rw [hrl] at h; simp [Except.bind, bind] at h
    | ok p =>
      obtain ⟨r1, st1⟩ := p
      rw [hrl] at h
      simp only [Except.bind, bind, Except.ok.injEq] at h
      subst h
      exact stepOkTrans (ih r1 st1 hrl) (stepOk_push_lines st1 [[]])
  -- text
  · intro st txt st' h
    simp only [renderOne, Except.ok.injEq] at h
    subst h
    exact stepOk_of_appendText u st _ (appendText_eta u st _)
  -- space
  · intro st raw st' h
    simp only [renderOne, Except.ok.injEq] at h
    subst h
    exact stepOk_of_appendText u st _ (appendText_eta u st _)
  -- br
  · intro st st' h
    simp only [renderOne, Except.ok.injEq] at h
    subst h
    exact stepOk_push_lines st [[]]
  -- strong
  · intro st tokens ih st' h
    simp only [renderOne] at h
    cases hrl : renderList u tokens st with
    | error e => rw [hrl] at h; simp [Except.bind, bind] at h
    | ok p =>
      obtain ⟨range, st1⟩ := p
      rw [hrl] at h
      simp only [Except.bind, bind, Except.ok.injEq] at h
      subst h
      obtain ⟨-, hstart, hend⟩ := renderList_ok_elim hrl
      have hstep := ih range st1 hrl
      refine stepOkTrans hstep (stepOk_push_attrs st1 _ ?_)
      apply forall_mem_singleton_attr
      apply attrOrdered_bold
      rw [hstart, hend, getEofPosition_eq_eofOf, getEofPosition_eq_eofOf]
      exact eofLe_of_grows hstep.1
  -- del
  · intro st tokens ih st' h
    simp only [renderOne] at h
    cases hrl : renderList u tokens st with
    | error e => rw [hrl] at h; simp [Except.bind, bind] at h
    | ok p =>
      obtain ⟨range, st1⟩ := p
      rw [hrl] at h
      simp only [Except.bind, bind, Except.ok.injEq] at h
      subst h
      obtain ⟨-, hstart, hend⟩ := renderList_ok_elim hrl
      have hstep := ih range st1 hrl
      refine stepOkTrans hstep (stepOk_push_attrs st1 _ ?_)
      apply forall_mem_singleton_attr
      apply attrOrdered_strike
      rw [hstart, hend, getEofPosition_eq_eofOf, getEofPosition_eq_eofOf]
      exact eofLe_of_grows hstep.1
  -- em
  · intro st tokens ih st' h
    simp only [renderOne] at h
    cases hrl : renderList u tokens st with
    | error e => rw [hrl] at h; simp [Except.bind, bind] at h
    | ok p =>
      obtain ⟨range, st1⟩ := p
      rw [hrl] at h
      simp only [Except.bind, bind, Except.ok.injEq] at h
      subst h
      obtain ⟨-, hstart, hend⟩ := renderList_ok_elim hrl
      have hstep := ih range st1 hrl
      refine stepOkTrans hstep (stepOk_push_attrs st1 _ ?_)
      apply forall_mem_singleton_attr
      apply attrOrdered_italic
      rw [hstart, hend, getEofPosition_eq_eofOf, getEofPosition_eq_eofOf]
      exact eofLe_of_grows hstep.1
  -- link
  · intro st href title _txt tokens r1 st1 hx ih st' h
    simp only [renderOne] at h
    rw [hx] at h
    cases hrl : renderList u tokens st1 with
    | error e => rw [hrl] at h; simp [Except.bind, bind] at h
    | ok p =>
      obtain ⟨range, st2⟩ := p
      rw [hrl] at h
      simp only [Except.bind, bind, Except.ok.injEq] at h
      obtain ⟨-, hstart, hend⟩ := renderList_ok_elim hrl
      have hstep1 := stepOk_of_appendText u st _ hx
      have hstep2 := ih range st2 hrl
      have hlinkOrd : attrOrdered (TextAttrItem.link range) := by
        apply attrOrdered_link
        rw [hstart, hend, getEofPosition_eq_eofOf, getEofPosition_eq_eofOf]
        exact eofLe_of_grows hstep2.1
      set st3 : RState := { st2 with attrs := st2.attrs ++ [.link range] } with hst3
      have hstep3 : StepOk st2 st3 :=
        stepOk_push_attrs st2 _ (forall_mem_singleton_attr hlinkOrd)
      rcases hx4 : appendText u st3 [']', '('] with ⟨r4, st4⟩
      rw [hx4] at h
      rcases hx5 : appendText u st4 href with ⟨r5, st5⟩
      rw [hx5] at h
      have hstep4 := stepOk_of_appendText u st3 _ hx4
      have hstep5 := stepOk_of_appendText u st4 _ hx5
      have hurlOrd : attrOrdered (TextAttrItem.url r5) :=
        attrOrdered_url (appendText_range_ordered u st4 href hx5)
      set st6 : RState := { st5 with attrs := st5.attrs ++ [.url r5] } with hst6
      have hstep6 : StepOk st5 st6 :=
        stepOk_push_attrs st5 _ (forall_mem_singleton_attr hurlOrd)
      have hbase : StepOk st st6 :=
        stepOkTrans hstep1 (stepOkTrans hstep2 (stepOkTrans hstep3
          (stepOkTrans hstep4 (stepOkTrans hstep5 hstep6))))
      have hfinal : ∀ st7 : RState, StepOk st st7 →
          ∀ st'', (appendText u st7 [')']).2 = st'' →
          StepOk st st'' := by
        intro st7 hstep7 st'' h''
        subst h''
        exact stepOkTrans hstep7 (stepOk_of_appendText u st7 _ (appendText_eta u st7 _))
      cases title with
      | none => exact hfinal st6 hbase st' h
      | some ttl =>
        dsimp only at h
        by_cases httl : ttl = []
        · rw [if_pos httl] at h
          exact hfinal st6 hbase st' h
        · rw [if_neg httl] at h
          rcases hx7 : appendText u st6 [' '] with ⟨r7, st7⟩
          rw [hx7] at h
          rcases hx8 : appendText u st7 ttl with ⟨r8, st8⟩
          rw [hx8] at h
          have hstep7 := stepOk_of_appendText u st6 _ hx7
          have hstep8 := stepOk_of_appendText u st7 _ hx8
          have httlOrd : attrOrdered (TextAttrItem.title r8 0) :=
            attrOrdered_title 0 (appendText_range_ordered u st7 ttl hx8)
          have hstep9 : StepOk st8 { st8 with attrs := st8.attrs ++ [.title r8 0] } :=
            stepOk_push_attrs st8 _ (forall_mem_singleton_attr httlOrd)
          exact hfinal _ (stepOkTrans hbase (stepOkTrans hstep7
            (stepOkTrans hstep8 hstep9))) st' h
  -- image
  · intro st href title txt r1 st1 hx1 r2 st2 hx2 st3 r4 st4 hx4 r5 st5 hx5 st' h
    simp only [renderOne] at h
    rw [hx1] at h
    rw [hx2] at h
    have hlinkOrd : attrOrdered (TextAttrItem.link r2) :=
      attrOrdered_link (appendText_range_ordered u st1 txt hx2)
    rw [hx4] at h
    rw [hx5] at h
    have hstep1 := stepOk_of_appendText u st _ hx1
    have hstep2 := stepOk_of_appendText u st1 _ hx2
    have hstep3 : StepOk st2 st3 :=
      stepOk_push_attrs st2 _ (forall_mem_singleton_attr hlinkOrd)
    have hstep4 := stepOk_of_appendText u st3 _ hx4
    have hstep5 := stepOk_of_appendText u st4 _ hx5
    have hurlOrd : attrOrdered (TextAttrItem.url r5) :=
      attrOrdered_url (appendText_range_ordered u st4 href hx5)
    set st6 : RState := { st5 with attrs := st5.attrs ++ [.url r5] } with hst6
    have hstep6 : StepOk st5 st6 :=
      stepOk_push_attrs st5 _ (forall_mem_singleton_attr hurlOrd)
    have hbase : StepOk st st6 :=
      stepOkTrans hstep1 (stepOkTrans hstep2 (stepOkTrans hstep3
        (stepOkTrans hstep4 (stepOkTrans hstep5 hstep6))))
    simp only [Except.ok.injEq] at h
    have hfinal : ∀ st7 : RState, StepOk st st7 →
        ∀ st'', (appendText u st7 [')']).2 = st'' →
        StepOk st st'' := by
      intro st7 hstep7 st'' h''
      subst h''
      exact stepOkTrans hstep7 (stepOk_of_appendText u st7 _ (appendText_eta u st7 _))
    cases title with
    | none => exact hfinal st6 hbase st' h
    | some ttl =>
      dsimp only at h
      by_cases httl : ttl = []
      · rw [if_pos httl] at h
        exact hfinal st6 hbase st' h
      · rw [if_neg httl] at h
        rcases hx7 : appendText u st6 [' '] with ⟨r7, st7⟩
        rw [hx7] at h
        rcases hx8 : appendText u st7 ttl with ⟨r8, st8⟩
        rw [hx8] at h
        have hstep7 := stepOk_of_appendText u st6 _ hx7
        have hstep8 := stepOk_of_appendText u st7 _ hx8
        have httlOrd : attrOrdered (TextAttrItem.title r8 0) :=
          attrOrdered_title 0 (appendText_range_ordered u st7 ttl hx8)
        have hstep9 : StepOk st8 { st8 with attrs := st8.attrs ++ [.title r8 0] } :=
          stepOk_push_attrs st8 _ (forall_mem_singleton_attr httlOrd)
        exact hfinal _ (stepOkTrans hbase (stepOkTrans hstep7
          (stepOkTrans hstep8 hstep9))) st' h
  -- code
  · intro st txt lang r1 st1 hx st' h
    simp only [renderOne] at h
    rw [hx] at h
    simp only [Except.ok.injEq] at h
    subst h
    have hstep1 := stepOk_of_appendText u st _ hx
    have hOrd : attrOrdered (TextAttrItem.fenced r1 (lang.getD [])) :=
      attrOrdered_fenced _ (appendText_range_ordered u st txt hx)
    refine stepOkTrans hstep1 ?_
    refine stepOkTrans (stepOk_push_attrs st1 _ (forall_mem_singleton_attr hOrd)) ?_
    exact stepOk_push_lines _ [[]]
  -- codespan
  · intro st txt r1 st1 hx1 st2 r3 st3 hx3 st4 r5 st5 hx5 st' h
    simp only [renderOne] at h
    rw [hx1] at h
    rw [hx3] at h
    rw [hx5] at h
    simp only [Except.ok.injEq] at h
    subst h
    have hOrd1 : attrOrdered (TextAttrItem.codespanDelimiter r1) :=
      attrOrdered_codespanDelimiter (appendText_range_ordered u st [backtickChar] hx1)
    have hOrd3 : attrOrdered (TextAttrItem.codespan r3) :=
      attrOrdered_codespan (appendText_range_ordered u st2 txt hx3)
    have hOrd5 : attrOrdered (TextAttrItem.codespanDelimiter r5) :=
      attrOrdered_codespanDelimiter (appendText_range_ordered u st4 [backtickChar] hx5)
    have hstep1 := stepOk_of_appendText u st _ hx1
    have hstep2 : StepOk st1 st2 :=
      stepOk_push_attrs st1 _ (forall_mem_singleton_attr hOrd1)
    have hstep3 := stepOk_of_appendText u st2 _ hx3
    have hstep4 : StepOk st3 st4 :=
      stepOk_push_attrs st3 _ (forall_mem_singleton_attr hOrd3)
    have hstep5 := stepOk_of_appendText u st4 _ hx5
    have hstep6 : StepOk st5 { st5 with attrs := st5.attrs ++ [.codespanDelimiter r5] } :=
      stepOk_push_attrs st5 _ (forall_mem_singleton_attr hOrd5)
    exact stepOkTrans hstep1 (stepOkTrans hstep2 (stepOkTrans hstep3
      (stepOkTrans hstep4 (stepOkTrans hstep5 hstep6))))
  -- blockquote
  · intro st tokens ih st' h
    simp only [renderOne] at h
    cases hsub : render u tokens with
    | error e => rw [hsub] at h; simp [Except.bind, bind] at h
    | ok sub =>
      rw [hsub] at h
      simp only [Except.bind, bind, Except.ok.injEq] at h
      subst h
      have hsubOrd : ∀ a ∈ sub.attrs, attrOrdered a := by
        intro a ha
        rcases (ih sub hsub).2 a ha with h' | h'
        · cases h'
        · exact h'
      have hshift : ∀ a ∈ sub.attrs.map (fun attr =>
          transformPosition attr ⟨st.text.length, 2⟩), attrOrdered a := by
        intro a ha
        obtain ⟨b, hb, rfl⟩ := List.mem_map.mp ha
        exact attrOrdered_transformPosition _ (hsubOrd b hb)
      have := stepOk_append st
        ((dropLastWhile isBlankLine sub.text).map (fun v => ['>', ' '] ++ v) ++ [[]])
        (sub.attrs.map (fun attr => transformPosition attr ⟨st.text.length, 2⟩)) hshift
      simpa [List.append_assoc] using this
  -- hr
  · intro st st' h
    simp only [renderOne, Except.ok.injEq] at h
    subst h
    refine stepOkTrans (stepOk_push_lines st [[]]) ?_
    exact stepOk_push_attrs _ _
      (forall_mem_singleton_attr (attrOrdered_of_no_range rfl))
  -- table
  · intro st raw st' h
    simp only [renderOne, Except.ok.injEq] at h
    subst h
    exact stepOk_of_appendText u st _ (appendText_eta u st _)
  -- list
  · intro st ordered items ih st' h
    simp only [renderOne] at h
    exact ih st' h
  -- list_item
  · intro st _checked tokens ih st' h
    simp only [renderOne] at h
    exact ih st' h
  -- html
  · intro st raw st' h
    simp only [renderOne] at h
    cases h
  -- linkdef
  · intro st raw st' h
    simp only [renderOne] at h
    cases h
  -- escape
  · intro st raw st' h
    simp only [renderOne] at h
    cases h
  -- renderItemChildren nil
  · intro st st' h
    simp only [renderItemChildren, Except.ok.injEq] at h
    subst h
    exact stepOkRefl st
  -- renderItemChildren cons, list child
  · intro st t rest hlist ihRest ihSub st' h
    simp only [renderItemChildren] at h
    rw [if_pos hlist] at h
    cases hsub : render u [t] with
    | error e => rw [hsub] at h; simp [Except.bind, bind] at h
    | ok sub =>
      rw [hsub] at h
      simp only [Except.bind, bind] at h
      have hsubOrd : ∀ a ∈ sub.attrs, attrOrdered a := by
        intro a ha
        rcases (ihSub sub hsub).2 a ha with h' | h'
        · cases h'
        · exact h'
      have hshift : ∀ a ∈ sub.attrs.map (fun attr =>
          transformPosition attr ⟨st.text.length, 0⟩), attrOrdered a := by
        intro a ha
        obtain ⟨b, hb, rfl⟩ := List.mem_map.mp ha
        exact attrOrdered_transformPosition _ (hsubOrd b hb)
      have hmid : StepOk st ⟨st.text ++ sub.text, st.attrs ++
          sub.attrs.map (fun attr => transformPosition attr ⟨st.text.length, 0⟩)⟩ :=
        stepOk_append st sub.text _ hshift
      exact stepOkTrans hmid (ihRest _ st' h)
  -- renderItemChildren cons, text child
  · intro st t rest hlist htext ihRest st' h
    simp only [renderItemChildren] at h
    rw [if_neg hlist, if_pos htext] at h
    simp only [Except.bind, bind] at h
    refine stepOkTrans ?_ (ihRest _ st' h)
    exact stepOk_of_appendText u st _ (appendText_eta u st _)
  -- renderItemChildren cons, other child
  · intro st t rest hlist htext ihRest ihOne st' h
    simp only [renderItemChildren] at h
    rw [if_neg hlist, if_neg htext] at h
    cases hone : renderOne u t st with
    | error e => rw [hone] at h; simp [Except.bind, bind] at h
    | ok stm =>
      rw [hone] at h
      simp only [Except.bind, bind] at h
      exact stepOkTrans (ihOne stm hone) (ihRest _ st' h)
  -- render
  · intro ts ih sub h
    rw [render] at h
    cases hrl : renderList u ts RState.empty with
    | error e => rw [hrl] at h; simp [Except.bind, bind] at h
    | ok p =>
      obtain ⟨r0, st0⟩ := p
      rw [hrl] at h
      simp only [Except.bind, bind, Except.ok.injEq] at h
      subst h
      exact ih r0 st0 hrl
  -- renderList
  · intro ts st ih r st' h
    obtain ⟨hrt, -, -⟩ := renderList_ok_elim h
    exact ih st' hrt
  -- renderTokens nil
  · intro st st' h
    simp only [renderTokens, Except.ok.injEq] at h
    subst h
    exact stepOkRefl st
  -- renderTokens cons
  · intro st t rest ihOne ihRest st' h
    obtain ⟨stm, h1, h2⟩ := renderTokens_cons_ok.mp h
    exact stepOkTrans (ihOne stm h1) (ihRest stm st' h2)
  -- renderItems nil
  · intro ordered labelSize checkboxSize idx st st' h
    simp only [renderItems, Except.ok.injEq] at h
    subst h
    exact stepOkRefl st
  -- renderItems cons
  · intro ordered labelSize checkboxSize idx st t rest ihSub ihRest st' h
    simp only [renderItems] at h
    cases hsub : render u [t] with
    | error e => rw [hsub] at h; simp [Except.bind, bind] at h
    | ok sub =>
      rw [hsub] at h
      simp only [Except.bind, bind] at h
      have hsubOrd : ∀ a ∈ sub.attrs, attrOrdered a := by
        intro a ha
        rcases (ihSub sub hsub).2 a ha with h' | h'
        · cases h'
        · exact h'
      have hshift : ∀ a ∈ sub.attrs.map (fun attr =>
          transformPosition attr ⟨0, labelSize + checkboxSize + 1⟩), attrOrdered a := by
        intro a ha
        obtain ⟨b, hb, rfl⟩ := List.mem_map.mp ha
        exact attrOrdered_transformPosition _ (hsubOrd b hb)
      have hmid := stepOk_append st
        ([renderLabel ordered labelSize idx ++ renderCheckbox (itemChecked t) checkboxSize
            ++ [' '] ++ sub.text.headD undefinedLine] ++
          sub.text.tail.map (fun v =>
            List.replicate (labelSize + checkboxSize + 1) ' ' ++ v))
        (sub.attrs.map (fun attr =>
          transformPosition attr ⟨0, labelSize + checkboxSize + 1⟩)) hshift
      refine stepOkTrans ?_ (ihRest sub st' h)
      simpa [List.append_assoc] using hmid

theorem renderTokens_stepOk (u : Line → Line) (ts : List Token) :
    ∀ st st', renderTokens u ts st = .ok st' → StepOk st st' := by
  induction ts with
  | nil =>
    intro st st' h
    simp only [renderTokens, Except.ok.injEq] at h
    subst h
    exact stepOkRefl st
  | cons t rest ih =>
    intro st st' h
    obtain ⟨stm, h1, h2⟩ := renderTokens_cons_ok.mp h
    exact stepOkTrans (renderOne_stepOk u t st stm h1) (ih stm st' h2)

theorem render_stepOk {u : Line → Line} {ts : List Token} {sub : RState}
    (h : render u ts = .ok sub) : StepOk RState.empty sub :=
  renderTokens_stepOk u ts RState.empty sub (render_ok.mp h)

/-- Every attribute in a successful top-level render is well ordered. -/
theorem render_attrs_ordered {u : Line → Line} {ts : List Token} {sub : RState}
    (h : render u ts = .ok sub) : ∀ a ∈ sub.attrs, attrOrdered a := by
  intro a ha
  rcases (render_stepOk h).2 a ha with h' | h'
  · cases h'
  · exact h'

/-- Elimination form of a successful `parseMarkdown`. -/
theorem parseMarkdown_ok_elim {u : Line → Line} {markdown : Line}
    {tokens : List Token} {res : MarkdownResult}
    (h : parseMarkdown u markdown tokens = .ok res) :
    ∃ st, render u tokens = .ok st ∧
      res = ⟨dropLastWhile (fun v => v = ([] : Line)) st.text, st.attrs⟩ := by
  rw [parseMarkdown] at h
  cases hr : render u tokens with
  | ok st =>
    rw [hr] at h
    simp only [Except.ok.injEq] at h
    exact ⟨st, rfl, h.symm⟩
  | error e =>
    rw [hr] at h
    cases h

/-! ### Failure on unsupported tokens -/

/-- If the token tree contains an unsupported token, the render fails. -/
theorem renderOne_unsupported_error (u : Line → Line) :
    ∀ (t : Token) (st : RState), hasUnsupportedTok t = true →
      ∃ e, renderOne u t st = .error e := by
  refine renderOne.induct u
    (fun t st => hasUnsupportedTok t = true → ∃ e, renderOne u t st = .error e)
    (fun ts st => hasUnsupportedList ts = true →
      ∃ e, renderItemChildren u ts st = .error e)
    (fun ts => hasUnsupportedList ts = true → ∃ e, render u ts = .error e)
    (fun ts st => hasUnsupportedList ts = true → ∃ e, renderList u ts st = .error e)
    (fun ts st => hasUnsupportedList ts = true → ∃ e, renderTokens u ts st = .error e)
    (fun o ls cs idx items st => hasUnsupportedList items = true →
      ∃ e, renderItems u o ls cs idx items st = .error e)
    ?_ ?_ ?_ ?_ ?_ ?_ ?_ ?_ ?_ ?_ ?_ ?_ ?_ ?_ ?_ ?_ ?_ ?_ ?_ ?_ ?_ ?_ ?_ ?_ ?_
    ?_ ?_ ?_ ?_ ?_
  -- heading
  · intro st depth tokens r1 st1 hx ih hu
    rw [hasUnsupportedTok] at hu
    obtain ⟨e, he⟩ := ih hu
    refine ⟨e, ?_⟩
    simp only [renderOne]
    rw [hx, he]
    simp [Except.bind, bind]
  -- paragraph
  · intro st tokens ih hu
    rw [hasUnsupportedTok] at hu
    obtain ⟨e, he⟩ := ih hu
    refine ⟨e, ?_⟩
    simp only [renderOne]
    rw [he]
    simp [Except.bind, bind]
  -- text
  · intro st txt hu
    simp [hasUnsupportedTok] at hu
  -- space
  · intro st raw hu
    simp [hasUnsupportedTok] at hu
  -- br
  · intro st hu
    simp [hasUnsupportedTok] at hu
  -- strong
  · intro st tokens ih hu
    rw [hasUnsupportedTok] at hu
    obtain ⟨e, he⟩ := ih hu
    refine ⟨e, ?_⟩
    simp only [renderOne]
    rw [he]
    simp [Except.bind, bind]
  -- del
  · intro st tokens ih hu
    rw [hasUnsupportedTok] at hu
    obtain ⟨e, he⟩ := ih hu
    refine ⟨e, ?_⟩
    simp only [renderOne]
    rw [he]
    simp [Except.bind, bind]
  -- em
  · intro st tokens ih hu
    rw [hasUnsupportedTok] at hu
    obtain ⟨e, he⟩ := ih hu
    refine ⟨e, ?_⟩
    simp only [renderOne]
    rw [he]
    simp [Except.bind, bind]
  -- link
  · intro st href title _txt tokens r1 st1 hx ih hu
    rw [hasUnsupportedTok] at hu
    obtain ⟨e, he⟩ := ih hu
    refine ⟨e, ?_⟩
    simp only [renderOne]
    rw [hx, he]
    simp [Except.bind, bind]
  -- image
  · intro st href title txt r1 st1 hx1 r2 st2 hx2 st3 r4 st4 hx4 r5 st5 hx5 hu
    simp [hasUnsupportedTok] at hu
  -- code
  · intro st txt lang r1 st1 hx hu
    simp [hasUnsupportedTok] at hu
  -- codespan
  · intro st txt r1 st1 hx1 st2 r3 st3 hx3 st4 r5 st5 hx5 hu
    simp [hasUnsupportedTok] at hu
  -- blockquote
  · intro st tokens ih hu
    rw [hasUnsupportedTok] at hu
    obtain ⟨e, he⟩ := ih hu
    refine ⟨e, ?_⟩
    simp only [renderOne]
    rw [he]
    simp [Except.bind, bind]
  -- hr
  · intro st hu
    simp [hasUnsupportedTok] at hu
  -- table
  · intro st raw hu
    simp [hasUnsupportedTok] at hu
  -- list
  · intro st ordered items ih hu
    rw [hasUnsupportedTok] at hu
    obtain ⟨e, he⟩ := ih hu
    refine ⟨e, ?_⟩
    simp only [renderOne]
    exact he
  -- list_item
  · intro st _checked tokens ih hu
    rw [hasUnsupportedTok] at hu
    obtain ⟨e, he⟩ := ih hu
    refine ⟨e, ?_⟩
    simp only [renderOne]
    exact he
  -- html
  · intro st raw _hu
    exact ⟨notImplementedMsg ("html".toList), by simp only [renderOne]⟩
  -- linkdef
  · intro st raw _hu
    exact ⟨notImplementedMsg ("def".toList), by simp only [renderOne]⟩
  -- escape
  · intro st raw _hu
    exact ⟨notImplementedMsg ("escape".toList), by simp only [renderOne]⟩
  -- renderItemChildren nil
  · intro st hu
    simp [hasUnsupportedList] at hu
  -- renderItemChildren cons, list child
  · intro st t rest hlist ihRest ihSub hu
    rw [hasUnsupportedList] at hu
    cases hsub : render u [t] with
    | error e =>
      refine ⟨e, ?_⟩
      simp only [renderItemChildren]
      rw [if_pos hlist, hsub]
      simp [Except.bind, bind]
    | ok sub =>
      have hrest : hasUnsupportedList rest = true := by
        rcases Bool.or_eq_true_iff.mp hu with h' | h'
        · obtain ⟨e, he⟩ := ihSub (by rw [hasUnsupportedList, h']; simp)
          rw [he] at hsub
          cases hsub
        · exact h'
      obtain ⟨e, he⟩ := ihRest _ hrest
      refine ⟨e, ?_⟩
      simp only [renderItemChildren]
      rw [if_pos hlist, hsub]
      simp only [Except.bind, bind]
      exact he
  -- renderItemChildren cons, text child
  · intro st t rest hlist htext ihRest hu
    rw [hasUnsupportedList] at hu
    have ht : hasUnsupportedTok t = false := by
      cases t <;> simp_all [Token.isTextKind, hasUnsupportedTok]
    rw [ht] at hu
    simp only [Bool.false_or] at hu
    obtain ⟨e, he⟩ := ihRest _ hu
    refine ⟨e, ?_⟩
    simp only [renderItemChildren]
    rw [if_neg hlist, if_pos htext]
    simp only [Except.bind, bind]
    exact he
  -- renderItemChildren cons, other child
  · intro st t rest hlist htext ihRest ihOne hu
    rw [hasUnsupportedList] at hu
    cases hone : renderOne u t st with
    | error e =>
      refine ⟨e, ?_⟩
      simp only [renderItemChildren]
      rw [if_neg hlist, if_neg htext, hone]
      simp [Except.bind, bind]
    | ok stm =>
      have hrest : hasUnsupportedList rest = true := by
        rcases Bool.or_eq_true_iff.mp hu with h' | h'
        · obtain ⟨e, he⟩ := ihOne h'
          rw [he] at hone
          cases hone
        · exact h'
      obtain ⟨e, he⟩ := ihRest _ hrest
      refine ⟨e, ?_⟩
      simp only [renderItemChildren]
      rw [if_neg hlist, if_neg htext, hone]
      simp only [Except.bind, bind]
      exact he
  -- render
  · intro ts ih hu
    obtain ⟨e, he⟩ := ih hu
    refine ⟨e, ?_⟩
    rw [render, he]
    simp [Except.bind, bind]
  -- renderList
  · intro ts st ih hu
    obtain ⟨e, he⟩ := ih hu
    refine ⟨e, ?_⟩
    rw [renderList, he]
    simp [Except.bind, bind]
  -- renderTokens nil
  · intro st hu
    simp [hasUnsupportedList] at hu
  -- renderTokens cons
  · intro st t rest ihOne ihRest hu
    rw [hasUnsupportedList] at hu
    cases hone : renderOne u t st with
    | error e =>
      refine ⟨e, ?_⟩
      rw [renderTokens, hone]
      simp [Except.bind, bind]
    | ok stm =>
      have hrest : hasUnsupportedList rest = true := by
        rcases Bool.or_eq_true_iff.mp hu with h' | h'
        · obtain ⟨e, he⟩ := ihOne h'
          rw [he] at hone
          cases hone
        · exact h'
      obtain ⟨e, he⟩ := ihRest _ hrest
      refine ⟨e, ?_⟩
      rw [renderTokens, hone]
      simp only [Except.bind, bind]
      exact he
  -- renderItems nil
  · intro ordered labelSize checkboxSize idx st hu
    simp [hasUnsupportedList] at hu
  -- renderItems cons
  · intro ordered labelSize checkboxSize idx st t rest ihSub ihRest hu
    rw [hasUnsupportedList] at hu
    cases hsub : render u [t] with
    | error e =>
      refine ⟨e, ?_⟩
      simp only [renderItems]
      rw [hsub]
      simp [Except.bind, bind]
    | ok sub =>
      have hrest : hasUnsupportedList rest = true := by
        rcases Bool.or_eq_true_iff.mp hu with h' | h'
        · obtain ⟨e, he⟩ := ihSub (by rw [hasUnsupportedList, h']; simp)
          rw [he] at hsub
          cases hsub
        · exact h'
      obtain ⟨e, he⟩ := ihRest sub hrest
      refine ⟨e, ?_⟩
      simp only [renderItems]
      rw [hsub]
      simp only [Except.bind, bind]
      exact he

theorem renderTokens_unsupported_error (u : Line → Line) (ts : List Token) :
    ∀ st, hasUnsupportedList ts = true →
      ∃ e, renderTokens u ts st = .error e := by
  induction ts with
  | nil => intro st hu; simp [hasUnsupportedList] at hu
  | cons t rest ih =>
    intro st hu
    rw [hasUnsupportedList] at hu
    cases hone : renderOne u t st with
    | error e =>
      refine ⟨e, ?_⟩
      rw [renderTokens, hone]
      simp [Except.bind, bind]
    | ok stm =>
      have hrest : hasUnsupportedList rest = true := by
        rcases Bool.or_eq_true_iff.mp hu with h' | h'
        · obtain ⟨e, he⟩ := renderOne_unsupported_error u t st h'
          rw [he] at hone
          cases hone
        · exact h'
      obtain ⟨e, he⟩ := ih stm hrest
      refine ⟨e, ?_⟩
      rw [renderTokens, hone]
      simp only [Except.bind, bind]
      exact he

theorem render_unsupported_error (u : Line → Line) (ts : List Token)
    (hu : hasUnsupportedList ts = true) : ∃ e, render u ts = .error e := by
  obtain ⟨e, he⟩ := renderTokens_unsupported_error u ts RState.empty hu
  refine ⟨e, ?_⟩
  rw [render, renderList, he]
  simp [Except.bind, bind]

/-! ### Remaining auxiliary lemmas -/

theorem getLastD_eq_getLast {α : Type} (l : List α) (d : α) (h : l ≠ []) :
    l.getLastD d = l.getLast h := by
  rw [List.getLastD_eq_getLast?, List.getLast?_eq_getLast l h]
  rfl

theorem padStart_length (l : Line) (t : Nat) (c : Char) :
    (padStart l t c).length = max t l.length := by
  simp only [padStart, List.length_append, List.length_replicate]
  omega

theorem natToString_length_mono {m n : Nat} (hm : 0 < m) (h : m ≤ n) :
    (natToString m).length ≤ (natToString n).length := by
  have hm' : ¬m = 0 := by omega
  have hn' : ¬n = 0 := by omega
  simp only [natToString, if_neg hm', if_neg hn', List.length_reverse,
    List.length_map]
  exact Nat.le_digits_len_le 10 m n h

/-! ## Claim theorems -/

/-- C9: `transformPosition` changes only position fields: for every
range-bearing attribute the type tag and the non-positional payload (the
`lang` of `fenced`, the `depth` of `title`) are unchanged and both range
endpoints are shifted by exactly `(delta.line, delta.character)`; for a
`horizontalrule` only its `line` changes, by exactly `delta.line`, with
`delta.character` ignored. -/
theorem c9_transformPosition_frame :
    (∀ (r : Range) (lang : Line) (δ : Position),
      transformPosition (.fenced r lang) δ = .fenced (shiftRange r δ) lang) ∧
    (∀ (r : Range) (d : Nat) (δ : Position),
      transformPosition (.title r d) δ = .title (shiftRange r δ) d) ∧
    (∀ (r : Range) (δ : Position),
      transformPosition (.bold r) δ = .bold (shiftRange r δ)) ∧
    (∀ (r : Range) (δ : Position),
      transformPosition (.strike r) δ = .strike (shiftRange r δ)) ∧
    (∀ (r : Range) (δ : Position),
      transformPosition (.italic r) δ = .italic (shiftRange r δ)) ∧
    (∀ (r : Range) (δ : Position),
      transformPosition (.link r) δ = .link (shiftRange r δ)) ∧
    (∀ (r : Range) (δ : Position),
      transformPosition (.url r) δ = .url (shiftRange r δ)) ∧
    (∀ (r : Range) (δ : Position),
      transformPosition (.codespan r) δ = .codespan (shiftRange r δ)) ∧
    (∀ (r : Range) (δ : Position),
      transformPosition (.codespanDelimiter r) δ =
        .codespanDelimiter (shiftRange r δ)) ∧
    (∀ (r : Range) (δ : Position),
      (shiftRange r δ).start.line = r.start.line + δ.line ∧
      (shiftRange r δ).start.character = r.start.character + δ.character ∧
      (shiftRange r δ).«end».line = r.«end».line + δ.line ∧
      (shiftRange r δ).«end».character = r.«end».character + δ.character) ∧
    (∀ (l : Nat) (δ : Position),
      transformPosition (.horizontalrule l) δ = .horizontalrule (l + δ.line)) ∧
    (∀ (l dl c c' : Nat),
      transformPosition (.horizontalrule l) ⟨dl, c⟩ =
        transformPosition (.horizontalrule l) ⟨dl, c'⟩) :=
  ⟨fun _ _ _ => rfl, fun _ _ _ => rfl, fun _ _ => rfl, fun _ _ => rfl,
   fun _ _ => rfl, fun _ _ => rfl, fun _ _ => rfl, fun _ _ => rfl,
   fun _ _ => rfl, fun _ _ => ⟨rfl, rfl, rfl, rfl⟩, fun _ _ => rfl,
   fun _ _ _ _ => rfl⟩

/-- C8: on every non-empty buffer, `getEofPosition` returns line = line
count and character = UTF-8 byte length of the last line plus one (plus
one more when exclusive); the column is byte-based, so a last line with a
multi-byte character yields a character strictly greater than its
character count plus one. -/
theorem c8_getEofPosition_bytes (st : RState) (exclusive : Bool)
    (h : st.text ≠ []) :
    (getEofPosition st exclusive).line = st.text.length ∧
    (getEofPosition st exclusive).character =
      strBytes (st.text.getLast h) + 1 + (if exclusive then 1 else 0) ∧
    strBytes (st.text.getLast h) =
      ((st.text.getLast h).map Char.utf8Size).sum ∧
    ((∃ c ∈ st.text.getLast h, 1 < c.utf8Size) →
      (st.text.getLast h).length + 1 < (getEofPosition st exclusive).character) := by
  refine ⟨rfl, ?_, rfl, ?_⟩
  · simp only [getEofPosition, getLastD_eq_getLast st.text [] h]
  · rintro ⟨c, hc, hsz⟩
    have hlt := length_lt_strBytes_of_multibyte hc hsz
    simp only [getEofPosition, getLastD_eq_getLast st.text [] h]
    rcases exclusive with _ | _ <;> simp <;> omega

/-- C8 witness: a buffer whose last line is `"aα"` (3 UTF-8 bytes) has
end-of-buffer character 4, strictly more than character count + 1. -/
theorem c8_getEofPosition_bytes_witness :
    (getEofPosition ⟨[['a', 'α']], []⟩ false).line = 1 ∧
    (getEofPosition ⟨[['a', 'α']], []⟩ false).character = 4 ∧
    (['a', 'α'] : Line).length + 1 <
      (getEofPosition ⟨[['a', 'α']], []⟩ false).character := by
  obtain ⟨h1, h2, _h3, h4⟩ :=
    c8_getEofPosition_bytes ⟨[['a', 'α']], []⟩ false (by simp)
  refine ⟨h1, ?_, ?_⟩
  · rw [h2]
    decide
  · exact h4 ⟨'α', by decide, by decide⟩

/-- C10: rendering the empty token sequence (the tokenization of the empty
string) succeeds with empty text and attrs, although the end-of-buffer
primitive is total on the empty buffer (where it returns line 0,
character 1). -/
theorem c10_empty_input (u : Line → Line) :
    parseMarkdown u [] [] = .ok ⟨[], []⟩ ∧
    getEofPosition RState.empty false = ⟨0, 1⟩ := by
  constructor
  · simp [parseMarkdown, render, renderList, renderTokens, RState.empty,
      dropLastWhile, Except.bind, bind]
  · rfl

/-- C5: a token tree containing an `html`, `def` or `escape` token makes
the whole call fail: `parseMarkdown` returns an error (hence no text/attrs
output at all), and the raised message contains the stable internal
diagnostic as well as the original source text. -/
theorem c5_unsupported_fails (u : Line → Line) (markdown : Line)
    (tokens : List Token) (h : hasUnsupportedList tokens = true) :
    ∃ e, parseMarkdown u markdown tokens = .error e ∧
      List.IsInfix internalErrorMsg e ∧
      List.IsSuffix markdown e ∧
      ∀ res, parseMarkdown u markdown tokens ≠ .ok res := by
  obtain ⟨e0, he0⟩ := render_unsupported_error u tokens h
  refine ⟨e0 ++ ['\n'] ++ internalErrorMsg ++ ['\n'] ++ markdown, ?_, ?_, ?_, ?_⟩
  · rw [parseMarkdown, he0]
  · exact ⟨e0 ++ ['\n'], ['\n'] ++ markdown, by simp⟩
  · exact ⟨e0 ++ ['\n'] ++ internalErrorMsg ++ ['\n'], by simp⟩
  · intro res hres
    rw [parseMarkdown, he0] at hres
    cases hres

/-- C5 witness: a tree containing an `html` token fails the whole call. -/
theorem c5_unsupported_fails_witness :
    ∃ e, parseMarkdown (fun l => l) ['x'] [Token.html ['<', 'b', '>']] = .error e ∧
      List.IsInfix internalErrorMsg e ∧
      List.IsSuffix ['x'] e ∧
      ∀ res, parseMarkdown (fun l => l) ['x'] [Token.html ['<', 'b', '>']] ≠ .ok res :=
  c5_unsupported_fails (fun l => l) ['x'] [Token.html ['<', 'b', '>']]
    (by simp [hasUnsupportedList, hasUnsupportedTok])

/-- C1 counterexample: the claim fails as stated.  The input `[hr]`
renders successfully with a `horizontalrule` attribute whose line is 0
while the output has 0 lines, violating `1 ≤ line ≤ number of output
lines`.  (The `unescape` parameter is the identity, which agrees with the
real unescaping on this entity-free input.) -/
theorem c1_counterexample :
    parseMarkdown (fun l => l) [] [Token.hr] =
      .ok ⟨[], [TextAttrItem.horizontalrule 0]⟩ ∧
    ¬(1 ≤ (0 : Nat)) := by
  constructor
  · simp [parseMarkdown, render, renderList, renderTokens, renderOne, RState.empty,
      dropLastWhile, Except.bind, bind]
  · decide

/-- C1 amended: for every token tree on which the render call succeeds,
every emitted range-bearing attribute has a well-ordered range (start at
or lexicographically before end).  The 1-indexed line-validity bounds of
the original claim do not hold (leading inline spans start at line 0,
`horizontalrule` lines can be 0 or point past the trimmed output, and the
list merge with line delta 0 re-addresses earlier lines). -/
theorem c1_amended_ranges_ordered (u : Line → Line) (markdown : Line)
    (tokens : List Token) (res : MarkdownResult)
    (h : parseMarkdown u markdown tokens = .ok res) :
    ∀ a ∈ res.attrs, ∀ r, attrRange? a = some r → posLe r.start r.«end» := by
  obtain ⟨st, hst, hres⟩ := parseMarkdown_ok_elim h
  subst hres
  intro a ha r hr
  exact render_attrs_ordered hst a ha r hr

/-- C1 amended witness: the leading-em render succeeds with an italic
attribute whose range `(0,1)..(1,2)` is well ordered (note its start line
0, which is what refutes the original claim). -/
theorem c1_amended_ranges_ordered_witness :
    parseMarkdown (fun l => l) [] [Token.em [Token.text ['x']]] =
      .ok ⟨[['x']], [TextAttrItem.italic ⟨⟨0, 1⟩, ⟨1, 2⟩⟩]⟩ ∧
    posLe (⟨0, 1⟩ : Position) ⟨1, 2⟩ := by
  have heval : parseMarkdown (fun l => l) [] [Token.em [Token.text ['x']]] =
      .ok ⟨[['x']], [TextAttrItem.italic ⟨⟨0, 1⟩, ⟨1, 2⟩⟩]⟩ := by
    simp [parseMarkdown, render, renderList, renderTokens, renderOne, RState.empty,
      dropLastWhile, Except.bind, bind, appendText, splitOnNl, getEofPosition,
      strBytes, Char.utf8Size]
  refine ⟨heval, ?_⟩
  exact c1_amended_ranges_ordered (fun l => l) [] [Token.em [Token.text ['x']]]
    ⟨[['x']], [TextAttrItem.italic ⟨⟨0, 1⟩, ⟨1, 2⟩⟩]⟩ heval
    (TextAttrItem.italic ⟨⟨0, 1⟩, ⟨1, 2⟩⟩) (by simp) ⟨⟨0, 1⟩, ⟨1, 2⟩⟩ rfl

/-- C2 counterexample: the claim fails as stated.  A text token `" "`
renders to the single line `" "`, which matches the blank-line regex and
is non-empty, yet the public entry point keeps it: only exactly-empty
trailing lines are dropped. -/
theorem c2_counterexample :
    parseMarkdown (fun l => l) [' '] [Token.text [' ']] = .ok ⟨[[' ']], []⟩ ∧
    isBlankLine [' '] = true ∧
    ([[' ']] : List Line).getLast? = some [' '] ∧
    ([' '] : Line) ≠ [] := by
  refine ⟨?_, by decide, by decide, by decide⟩
  simp [parseMarkdown, render, renderList, renderTokens, renderOne, RState.empty,
    dropLastWhile, Except.bind, bind, appendText, splitOnNl, getEofPosition,
    strBytes, Char.utf8Size]

/-- C2 amended: the public entry point removes exactly-empty trailing
lines from the end only: the returned text has no trailing empty line, it
is a prefix of the rendered text whose dropped suffix consists of empty
lines only, and the attributes pass through unchanged. -/
theorem c2_amended_trailing_trim (u : Line → Line) (markdown : Line)
    (tokens : List Token) (res : MarkdownResult)
    (h : parseMarkdown u markdown tokens = .ok res) :
    (∀ x, res.text.getLast? = some x → x ≠ []) ∧
    ∃ st dropped, render u tokens = .ok st ∧ res.attrs = st.attrs ∧
      st.text = res.text ++ dropped ∧ ∀ l ∈ dropped, l = [] := by
  obtain ⟨st, hst, hres⟩ := parseMarkdown_ok_elim h
  subst hres
  obtain ⟨dropped, hsplit, hdropped, hlast⟩ :=
    dropLastWhile_spec (fun v => v = ([] : Line)) st.text
  refine ⟨?_, st, dropped, hst, rfl, hsplit, ?_⟩
  · intro x hx
    have := hlast x hx
    simpa using this
  · intro l hl
    have := hdropped l hl
    simpa using this

/-- C2 amended witness: a paragraph renders with one trailing empty line
which the entry point drops; the kept line is unchanged. -/
theorem c2_amended_trailing_trim_witness :
    (∀ x, ([[ 'h', 'i' ]] : List Line).getLast? = some x → x ≠ []) ∧
    ∃ st dropped,
      render (fun l => l) [Token.paragraph [Token.text ['h', 'i']]] = .ok st ∧
      ([] : List TextAttrItem) = st.attrs ∧
      st.text = [['h', 'i']] ++ dropped ∧ ∀ l ∈ dropped, l = [] := by
  have heval : parseMarkdown (fun l => l) [] [Token.paragraph [Token.text ['h', 'i']]] =
      .ok ⟨[['h', 'i']], []⟩ := by
    simp [parseMarkdown, render, renderList, renderTokens, renderOne, RState.empty,
      dropLastWhile, Except.bind, bind, appendText, splitOnNl, getEofPosition,
      strBytes, Char.utf8Size]
  exact c2_amended_trailing_trim (fun l => l) [] [Token.paragraph [Token.text ['h', 'i']]]
    ⟨[['h', 'i']], []⟩ heval

/-- C3 counterexample: the claim fails as stated.  The heading
`# a` of depth 1 yields a `title` attribute whose range starts at
column 1 (the marker itself is inside the range), not at
`1 + byte length of the marker = 3`. -/
theorem c3_counterexample :
    parseMarkdown (fun l => l) ("# a".toList)
        [Token.heading 1 [Token.text ['a']]] =
      .ok ⟨["# a".toList], [.title ⟨⟨1, 1⟩, ⟨1, 4⟩⟩ 1]⟩ ∧
    (1 : Nat) ≠ 1 + strBytes (List.replicate 1 '#' ++ [' ']) := by
  constructor
  · simp [parseMarkdown, render, renderList, renderTokens, renderOne, RState.empty,
      dropLastWhile, Except.bind, bind, appendText, splitOnNl, getEofPosition,
      strBytes, Char.utf8Size]
  · decide

/-- C3 amended: for every heading token of depth d, the emitted attribute
is a `title` of depth exactly d whose range starts at the position at
which the `"#"*d + " "` marker itself begins — `(1,1)` when the buffer was
empty, so the marker is included in the range — and ends right after the
rendered children; the marker is preserved in the output text. -/
theorem c3_amended_title_range (u : Line → Line) (d : Nat) (ts : List Token)
    (st st' : RState) (h : renderOne u (Token.heading d ts) st = .ok st') :
    ∃ st2,
      renderTokens u ts (appendText u st (List.replicate d '#' ++ [' '])).2 = .ok st2 ∧
      st' = { text := st2.text ++ [[]],
              attrs := st2.attrs ++
                [.title ⟨(appendText u st (List.replicate d '#' ++ [' '])).1.start,
                         getEofPosition st2⟩ d] } ∧
      (st.text = [] →
        (appendText u st (List.replicate d '#' ++ [' '])).1.start = ⟨1, 1⟩) := by
  simp only [renderOne] at h
  rcases hax : appendText u st (List.replicate d '#' ++ [' ']) with ⟨r1, st1⟩
  rw [hax] at h
  cases hrl : renderList u ts st1 with
  | error e => rw [hrl] at h; simp [Except.bind, bind] at h
  | ok p =>
    obtain ⟨r2, st2⟩ := p
    rw [hrl] at h
    simp only [Except.bind, bind, Except.ok.injEq] at h
    obtain ⟨hrt, -, hend⟩ := renderList_ok_elim hrl
    refine ⟨st2, ?_, ?_, ?_⟩
    · exact hrt
    · rw [← h, ← hend]
    · intro hempty
      show r1.start = ⟨1, 1⟩
      rw [appendText, if_pos hempty] at hax
      obtain ⟨hr1, -⟩ := Prod.mk.injEq .. ▸ hax
      rw [← hr1]

/-- C3 amended witness: the concrete heading `# a` has its title
attribute starting at `(1,1)` with the marker preserved in the line. -/
theorem c3_amended_title_range_witness :
    ∃ st2,
      renderTokens (fun l => l) [Token.text ['a']]
          (appendText (fun l => l) RState.empty
            (List.replicate 1 '#' ++ [' '])).2 = .ok st2 ∧
      ({ text := ["# a".toList, []],
         attrs := [TextAttrItem.title ⟨⟨1, 1⟩, ⟨1, 4⟩⟩ 1] } : RState) =
        { text := st2.text ++ [[]],
          attrs := st2.attrs ++
            [.title ⟨(appendText (fun l => l) RState.empty
                       (List.replicate 1 '#' ++ [' '])).1.start,
                     getEofPosition st2⟩ 1] } ∧
      (RState.empty.text = [] →
        (appendText (fun l => l) RState.empty
          (List.replicate 1 '#' ++ [' '])).1.start = ⟨1, 1⟩) := by
  apply c3_amended_title_range (fun l => l) 1 [Token.text ['a']]
    RState.empty
  simp [renderOne, renderList, renderTokens, RState.empty, Except.bind, bind,
    appendText, splitOnNl, getEofPosition, strBytes, Char.utf8Size]

/-- C4 (code bug): for the list `[- [ ] a]` whose only item declares
`checked = false`, the shared checkbox width computed by the code is 0
(`filter((v) => v.checked)` keeps only `checked === true` items), yet the
item's checkbox rendering `" [ ]"` is 4 bytes wide, so the widths are not
equal; the first line's prefix is 8 bytes while the shared indent width is
4, breaking the equal-width checkbox column the claim states. -/
theorem c4_checkbox_width_bug :
    listCheckboxSize [Token.list_item (some false) [Token.text ['a']]] = 0 ∧
    itemChecked (Token.list_item (some false) [Token.text ['a']]) = some false ∧
    (renderCheckbox (some false)
      (listCheckboxSize [Token.list_item (some false) [Token.text ['a']]])).length = 4 ∧
    (renderCheckbox (some false)
      (listCheckboxSize [Token.list_item (some false) [Token.text ['a']]])).length ≠
      listCheckboxSize [Token.list_item (some false) [Token.text ['a']]] ∧
    render (fun l => l)
        [Token.list false [Token.list_item (some false) [Token.text ['a']]]] =
      .ok ⟨[['•', ' ', '[', ' ', ']', ' ', 'a']], []⟩ ∧
    strBytes (labelChar ++ renderCheckbox (some false) 0 ++ [' ']) ≠
      listLabelSize false [Token.list_item (some false) [Token.text ['a']]] +
        listCheckboxSize [Token.list_item (some false) [Token.text ['a']]] + 1 := by
  refine ⟨by decide, by decide, by decide, by decide, ?_, by decide⟩
  simp [render, renderList, renderTokens, renderOne, renderItems, renderItemChildren,
    RState.empty, Except.bind, bind, appendText, splitOnNl, getEofPosition, strBytes,
    Char.utf8Size, renderLabel, renderCheckbox, listLabelSize, listCheckboxSize,
    labelChar, itemChecked, checkedTruthy, Token.isList, Token.isTextKind, textOfToken,
    stripAfterNewlineWs, undefinedLine]

/-- C6: rendering a blockquote equals rendering its children in a fresh
sub-renderer, trimming trailing blank-only lines, prefixing every
remaining line with `"> "`, pushing one trailing blank line, and merging
every sub-attribute shifted by `{line: parent's current line count,
character: +2}`; every quoted line starts with `"> "` and every range
attribute's columns are shifted by exactly +2 relative to the unwrapped
sub-render. -/
theorem c6_blockquote_shift (u : Line → Line) (ts : List Token) (st : RState)
    (sub : RState) (h : render u ts = .ok sub) :
    renderOne u (Token.blockquote ts) st =
      .ok { text := st.text ++
              (dropLastWhile isBlankLine sub.text).map (fun v => ['>', ' '] ++ v) ++ [[]],
            attrs := st.attrs ++ sub.attrs.map (fun a =>
              transformPosition a ⟨st.text.length, 2⟩) } ∧
    (∀ l ∈ (dropLastWhile isBlankLine sub.text).map (fun v => ['>', ' '] ++ v),
      l.take 2 = ['>', ' ']) ∧
    (∀ a ∈ sub.attrs, ∀ r, attrRange? a = some r →
      attrRange? (transformPosition a ⟨st.text.length, 2⟩) =
        some ⟨⟨r.start.line + st.text.length, r.start.character + 2⟩,
              ⟨r.«end».line + st.text.length, r.«end».character + 2⟩⟩) := by
  refine ⟨?_, ?_, ?_⟩
  · simp only [renderOne]
    rw [h]
    simp [Except.bind, bind]
  · intro l hl
    obtain ⟨v, -, rfl⟩ := List.mem_map.mp hl
    rfl
  · intro a _ha r hr
    rw [attrRange?_transformPosition, hr]
    rfl

/-- C6 witness: a blockquote containing an em over `"x"`, rendered after
one existing parent line, quotes the line as `"> x"` and shifts the
italic span from `(0,1)..(1,2)` to `(1,3)..(2,4)` — lines by the parent
line count 1 and columns by exactly +2. -/
theorem c6_blockquote_shift_witness :
    renderOne (fun l => l) (Token.blockquote [Token.em [Token.text ['x']]])
        ⟨[['p']], []⟩ =
      .ok { text := [['p']] ++
              (dropLastWhile isBlankLine [['x']]).map (fun v => ['>', ' '] ++ v) ++ [[]],
            attrs := ([] : List TextAttrItem) ++
              [TextAttrItem.italic ⟨⟨0, 1⟩, ⟨1, 2⟩⟩].map (fun a =>
                transformPosition a ⟨[['p']].length, 2⟩) } ∧
    renderOne (fun l => l) (Token.blockquote [Token.em [Token.text ['x']]])
        ⟨[['p']], []⟩ =
      .ok ⟨[['p'], ['>', ' ', 'x'], []], [TextAttrItem.italic ⟨⟨1, 3⟩, ⟨2, 4⟩⟩]⟩ := by
  have hsub : render (fun l => l) [Token.em [Token.text ['x']]] =
      .ok ⟨[['x']], [TextAttrItem.italic ⟨⟨0, 1⟩, ⟨1, 2⟩⟩]⟩ := by
    simp [render, renderList, renderTokens, renderOne, RState.empty, Except.bind,
      bind, appendText, splitOnNl, getEofPosition, strBytes, Char.utf8Size]
  have h := c6_blockquote_shift (fun l => l) [Token.em [Token.text ['x']]]
    ⟨[['p']], []⟩ ⟨[['x']], [TextAttrItem.italic ⟨⟨0, 1⟩, ⟨1, 2⟩⟩]⟩ hsub
  refine ⟨h.1, ?_⟩
  rw [h.1]
  simp [dropLastWhile, isBlankLine, isJsWhitespace, transformPosition, shiftRange]

/-- C7: in an ordered list with N items, every item label has width
(number of decimal digits of N) + 1: the item number is right-justified
with space padding and followed by a dot, using exactly the shared label
size computed for the list. -/
theorem c7_ordered_list_labels (items : List Token) (idx : Nat)
    (h : idx < items.length) :
    (renderLabel true (listLabelSize true items) idx).length =
      (natToString items.length).length + 1 ∧
    renderLabel true (listLabelSize true items) idx =
      List.replicate ((natToString items.length).length -
        (natToString (idx + 1)).length) ' ' ++ natToString (idx + 1) ++ ['.'] := by
  have hmono : (natToString (idx + 1)).length ≤ (natToString items.length).length :=
    natToString_length_mono (Nat.succ_pos idx) h
  constructor
  · simp [renderLabel, listLabelSize, padStart_length]
    omega
  · simp [renderLabel, listLabelSize, padStart, List.append_assoc]

/-- C7 witness: with N = 10, item 1 gets `" 1."` and item 10 gets
`"10."`, both of the shared width 3. -/
theorem c7_ordered_list_labels_witness :
    (renderLabel true
      (listLabelSize true (List.replicate 10 (Token.list_item none []))) 9).length =
      (natToString 10).length + 1 ∧
    renderLabel true
      (listLabelSize true (List.replicate 10 (Token.list_item none []))) 0 =
      [' ', '1', '.'] ∧
    renderLabel true
      (listLabelSize true (List.replicate 10 (Token.list_item none []))) 9 =
      ['1', '0', '.'] := by
  have h := c7_ordered_list_labels (List.replicate 10 (Token.list_item none []))
    9 (by simp)
  refine ⟨?_, ?_, ?_⟩
  · simpa using h.1
  · simp [renderLabel, listLabelSize, natToString, padStart, Nat.digitChar]
  · simp [renderLabel, listLabelSize, natToString, padStart, Nat.digitChar]

end LspointsMarkdown
